import Mathlib

/-!
Verification development for `fsa.py`, a filesystem audit tool.

The Python source is shallowly embedded: dictionaries (`dict` / `OrderedDict`)
become association lists with Python's iteration-order semantics (insertion
order preserved, assignment to an existing key keeps its position), fallible
operations (`KeyError`, `TypeError`) become `Option` / `Except`, and the
`while` loop of `ignore_file` is given explicit fuel so that its
(non-)termination can be stated.

Python values held in `FileMeta` fields are untyped; they are embedded as the
sum type `Value` (strings, integers, and numeric timestamps, the latter
modelled exactly as rationals).
-/

namespace FsAudit

/-! ## Definitions: association lists with Python dict semantics -/

section AssocDefs

variable {α : Type*} {β : Type*} [DecidableEq α]

/-- Python dict lookup on an association list: the first entry with the given
key (a real dict has at most one entry per key; all lists built below do). -/
def lookupA : List (α × β) → α → Option β
  | [], _ => none
  | (a, b) :: t, k => if a = k then some b else lookupA t k

/-- The position of the first occurrence of a value in a list (the list's
length when absent). -/
def idxOfA : List α → α → Nat
  | [], _ => 0
  | v :: t, x => if v = x then 0 else idxOfA t x + 1

/-- Replace the value stored under key `a` (at every entry holding that key,
keeping its position). -/
def replaceKey (a : α) (b : β) : List (α × β) → List (α × β)
  | [] => []
  | (c, v) :: t => (if c = a then (a, b) else (c, v)) :: replaceKey a b t

/-- Python dict assignment `d[a] = b`: an existing key keeps its position and
gets the new value, a new key is appended at the end (insertion order). -/
def odUpdate (d : List (α × β)) (a : α) (b : β) : List (α × β) :=
  if (lookupA d a).isSome then replaceKey a b d
  else d ++ [(a, b)]

/-- The group-id cache step of `group_diff`:
`if not v in cache: cache[v] = len(cache)` followed by reading `cache[v]`.
Returns the updated cache and the group id. -/
def cacheGet (cache : List (α × Nat)) (v : α) : List (α × Nat) × Nat :=
  match lookupA cache v with
  | some g => (cache, g)
  | none => (cache ++ [(v, cache.length)], cache.length)

/-- One step of first-seen accumulation: append a value unless already seen. -/
def seenInsert (acc : List α) (v : α) : List α :=
  if v ∈ acc then acc else acc ++ [v]

/-- The distinct values of a list in the order they are first seen. -/
def firstSeen (l : List α) : List α :=
  l.foldl seenInsert []

/-- Pair each element of a list with its position, starting at `n`. -/
def idxFrom (n : Nat) : List α → List (α × Nat)
  | [] => []
  | v :: t => (v, n) :: idxFrom (n + 1) t

/-- A value-to-group-id cache whose ids are the positions of the values. -/
def idxCache (l : List α) : List (α × Nat) :=
  idxFrom 0 l

end AssocDefs

/-! ## Definitions: the Record data model (`FileMeta` in `fsa.py`) -/

/-- A Python value stored in a `FileMeta` field: a string, an integer, or a
numeric timestamp (modelled exactly as a rational number). -/
inductive Value where
  | str : String → Value
  | int : Int → Value
  | num : Rat → Value
  deriving DecidableEq

instance : Inhabited Value := ⟨Value.str ""⟩

/-- One file's audit record. Mirrors the attributes set by
`FileMeta.__init__` / `FileMeta.from_dict`: `name, path, mode, uid, gid,
size, atime, mtime, ctime, hash_value`. Fields are untyped Python values. -/
structure FileMeta where
  name : Value
  path : Value
  mode : Value
  uid : Value
  gid : Value
  size : Value
  atime : Value
  mtime : Value
  ctime : Value
  hash_value : Value
  deriving DecidableEq

instance : Inhabited FileMeta :=
  ⟨⟨default, default, default, default, default, default, default, default,
    default, default⟩⟩

/-- `FileMeta.KEYS` from the source: the serialized field order. -/
def FileMeta.KEYS : List String :=
  ["name", "path", "mode", "uid", "gid", "size", "atime", "mtime", "ctime", "hash"]

/-- `FileMeta.__getitem__`: attribute access through `self.__dict__`, with
`"hash"` remapped to the attribute `hash_value`; an unknown attribute name is
a `KeyError` (`none`). -/
def FileMeta.getItem (m : FileMeta) (attr : String) : Option Value :=
  let attr := if attr = "hash" then "hash_value" else attr
  if attr = "name" then some m.name
  else if attr = "path" then some m.path
  else if attr = "mode" then some m.mode
  else if attr = "uid" then some m.uid
  else if attr = "gid" then some m.gid
  else if attr = "size" then some m.size
  else if attr = "atime" then some m.atime
  else if attr = "mtime" then some m.mtime
  else if attr = "ctime" then some m.ctime
  else if attr = "hash_value" then some m.hash_value
  else none

/-- The attribute names for which `FileMeta.__getitem__` succeeds. -/
def ATTRS : List String :=
  ["name", "path", "mode", "uid", "gid", "size", "atime", "mtime", "ctime",
   "hash", "hash_value"]

/-- Total version of `FileMeta.__getitem__` (junk value on unknown names),
used to phrase properties; `getItem_eq_attrVal` ties it to `getItem`. -/
def attrVal (m : FileMeta) (k : String) : Value :=
  (m.getItem k).getD (Value.str "")

/-- `FileMeta.to_dict`: the ordered serialized dictionary; the field
`hash_value` is spelled `"hash"` in serialized form. -/
def FileMeta.to_dict (m : FileMeta) : List (String × Value) :=
  [("name", m.name), ("path", m.path), ("mode", m.mode), ("uid", m.uid),
   ("gid", m.gid), ("size", m.size), ("atime", m.atime), ("mtime", m.mtime),
   ("ctime", m.ctime), ("hash", m.hash_value)]

/-- `FileMeta.to_list`: the ten field values in serialized order. -/
def FileMeta.to_list (m : FileMeta) : List Value :=
  [m.name, m.path, m.mode, m.uid, m.gid, m.size, m.atime, m.mtime, m.ctime,
   m.hash_value]

/-- `FileMeta.from_dict`: reconstruction from a serialized dictionary; a
missing key is a `KeyError` (`none`). -/
def FileMeta.from_dict (d : List (String × Value)) : Option FileMeta := do
  let name ← lookupA d "name"
  let path ← lookupA d "path"
  let mode ← lookupA d "mode"
  let uid ← lookupA d "uid"
  let gid ← lookupA d "gid"
  let size ← lookupA d "size"
  let atime ← lookupA d "atime"
  let mtime ← lookupA d "mtime"
  let ctime ← lookupA d "ctime"
  let hash_value ← lookupA d "hash"
  some ⟨name, path, mode, uid, gid, size, atime, mtime, ctime, hash_value⟩

/-- Python `str()` of a field value, as substituted by `str.format`. The
precise text of numeric renderings plays no role in any claim. -/
def Value.pyStr : Value → String
  | .str s => s
  | .int n => toString n
  | .num q => toString q

/-! ## Definitions: template rendering (`FileMeta.to_string`) -/

/-- A parsed `str.format` template: literal text and replacement fields. -/
inductive TmplPart where
  | lit : String → TmplPart
  | field : String → TmplPart
  deriving DecidableEq

/-- Python `str.format` over a parsed template and keyword arguments: a
replacement field naming an absent keyword is a `KeyError` (`none`). -/
def formatTmpl : List TmplPart → List (String × String) → Option String
  | [], _ => some ""
  | TmplPart.lit s :: rest, env =>
    match formatTmpl rest env with
    | none => none
    | some r => some (s ++ r)
  | TmplPart.field f :: rest, env =>
    match lookupA env f with
    | none => none
    | some v =>
      match formatTmpl rest env with
      | none => none
      | some r => some (v ++ r)

/-- `FileMeta.to_string`: renders a template with the keyword arguments the
source passes to `fmt.format(...)`. Note the source passes `time=self.atime`
(not `atime=`) and `hash_value=self.hash_value` (not `hash=`): that keyword
list is reproduced verbatim here. -/
def FileMeta.to_string (m : FileMeta) (fmt : List TmplPart) : Option String :=
  formatTmpl fmt
    [("name", m.name.pyStr), ("path", m.path.pyStr), ("mode", m.mode.pyStr),
     ("uid", m.uid.pyStr), ("gid", m.gid.pyStr), ("size", m.size.pyStr),
     ("time", m.atime.pyStr),
     ("mtime", m.mtime.pyStr), ("ctime", m.ctime.pyStr),
     ("hash_value", m.hash_value.pyStr)]

/-! ## Definitions: the Diff Grouping Engine (`group_diff`) -/

/-- The per-key loop body of `group_diff`: for each interesting key, fetch
that key's value cache (`single_key_value_cache[key]`), read the record's
value (`meta[key]`), insert the value into the cache if new (its id is the
cache size at insertion), and store the id under the key in the per-record
OrderedDict `groups`. -/
def keyLoop (m : FileMeta) :
    List (String × List (Value × Nat)) → List (String × Nat) → List String →
    Except String (List (String × List (Value × Nat)) × List (String × Nat))
  | sc, groups, [] => .ok (sc, groups)
  | sc, groups, key :: rest =>
    match lookupA sc key with
    | none => .error "KeyError: single_key_value_cache"
    | some cache =>
      match m.getItem key with
      | none => .error "KeyError: meta attribute"
      | some v =>
        let cg := cacheGet cache v
        keyLoop m (odUpdate sc key cg.1) (odUpdate groups key cg.2) rest

/-- The record loop of `group_diff`. A `none` entry — the way `cmd_diff`
represents a snapshot that lacks the path, via `get_meta` — makes the body
evaluate `meta[key]` on Python `None`, which raises `TypeError`. -/
def groupDiffAux (interesting_keys : List String) :
    List (String × List (Value × Nat)) → List (List (String × Nat) × Nat) →
    List (Option FileMeta) →
    Except String (List (Option FileMeta × List (String × Nat) × Nat))
  | _, _, [] => .ok []
  | sc, tc, om :: rest =>
    match om with
    | none => .error "TypeError: NoneType object is not subscriptable"
    | some m =>
      match keyLoop m sc [] interesting_keys with
      | .error e => .error e
      | .ok (sc', groups) =>
        let tg := cacheGet tc groups
        match groupDiffAux interesting_keys sc' tg.1 rest with
        | .error e => .error e
        | .ok out => .ok ((om, groups, tg.2) :: out)

/-- `group_diff(interesting_keys, meta_files)` from the source: per-attribute
group ids and a combined group id for each supplied record, assigned in
first-seen order in a single pass. -/
def group_diff (interesting_keys : List String)
    (meta_files : List (Option FileMeta)) :
    Except String (List (Option FileMeta × List (String × Nat) × Nat)) :=
  groupDiffAux interesting_keys (interesting_keys.map fun k => (k, [])) []
    meta_files

/-- The values of one attribute over a record list. -/
def attrVals (k : String) (ms : List FileMeta) : List Value :=
  ms.map fun m => attrVal m k

/-- The per-attribute group id `group_diff` assigns: the first-seen rank of
the record's value among that attribute's values over the input. -/
def perAttrId (ms : List FileMeta) (k : String) (m : FileMeta) : Nat :=
  idxOfA (firstSeen (attrVals k ms)) (attrVal m k)

/-- The per-record OrderedDict `groups` that `group_diff` produces. -/
def tupleAt (keys : List String) (ms : List FileMeta) (m : FileMeta) :
    List (String × Nat) :=
  keys.map fun k => (k, perAttrId ms k m)

/-- The combined group id: the first-seen rank of the record's `groups`
tuple among all records' tuples. -/
def combinedAt (keys : List String) (ms : List FileMeta) (m : FileMeta) : Nat :=
  idxOfA (firstSeen (ms.map (tupleAt keys ms))) (tupleAt keys ms m)

/-! ## Definitions: Snapshots (`FileMetaCollection`) -/

/-- A snapshot: named, ordered collection of records with one index per
declared key (`FileMetaCollection` in the source). -/
structure FileMetaCollection where
  name : Option String
  index_keys : List String
  meta_list : List FileMeta
  meta_indexed : List (String × List (Value × FileMeta))
  deriving DecidableEq

/-- `FileMetaCollection.__init__` with a list of index keys: empty record
list and one empty index per declared key. -/
def FileMetaCollection.new (index_keys : List String) (name : Option String) :
    FileMetaCollection :=
  ⟨name, index_keys, [], index_keys.map fun k => (k, [])⟩

/-- The index-update loop of `add`:
`self.meta_indexed[key][meta[key]] = meta` for each declared key; `KeyError`
if the key is missing from `meta_indexed` or is not a record attribute. -/
def addIndex (meta : FileMeta) :
    List (String × List (Value × FileMeta)) → List String →
    Except String (List (String × List (Value × FileMeta)))
  | mi, [] => .ok mi
  | mi, key :: rest =>
    match lookupA mi key with
    | none => .error "KeyError: meta_indexed"
    | some inner =>
      match meta.getItem key with
      | none => .error "KeyError: meta attribute"
      | some v => addIndex meta (odUpdate mi key (odUpdate inner v meta)) rest

/-- `FileMetaCollection.add`: append to the ordered record list and update
every declared index; a later record with a duplicate key value silently
overwrites the index entry (last write wins). -/
def FileMetaCollection.add (c : FileMetaCollection) (meta : FileMeta) :
    Except String FileMetaCollection :=
  match addIndex meta c.meta_indexed c.index_keys with
  | .error e => .error e
  | .ok mi => .ok ⟨c.name, c.index_keys, c.meta_list ++ [meta], mi⟩

/-- `FileMetaCollection.from_iterable`: `add` each record in order. -/
def addAll (c : FileMetaCollection) :
    List FileMeta → Except String FileMetaCollection
  | [] => .ok c
  | m :: rest =>
    match c.add m with
    | .error e => .error e
    | .ok c' => addAll c' rest

/-- `FileMetaCollection.get_meta_index`: the value-to-record index of a
declared key (`KeyError`, i.e. `none`, if the key was not declared). -/
def FileMetaCollection.get_meta_index (c : FileMetaCollection) (key : String) :
    Option (List (Value × FileMeta)) :=
  lookupA c.meta_indexed key

/-- `FileMetaCollection.get_meta`: `self.meta_indexed[key].get(value, None)`.
The outer option is the `KeyError` on an undeclared key; the inner option is
the documented found-or-`None` lookup result. -/
def FileMetaCollection.get_meta (c : FileMetaCollection) (key : String)
    (value : Value) : Option (Option FileMeta) :=
  (c.get_meta_index key).map fun idx => lookupA idx value

/-- `FileMetaCollection.from_json_file`, after JSON parsing: build a record
from each serialized dictionary (`FileMeta(from_dict=raw)`) and `add` it. -/
def fromJsonData (c : FileMetaCollection) :
    List (List (String × Value)) → Except String FileMetaCollection
  | [] => .ok c
  | raw :: rest =>
    match FileMeta.from_dict raw with
    | none => .error "KeyError: from_dict"
    | some meta =>
      match c.add meta with
      | .error e => .error e
      | .ok c' => fromJsonData c' rest

/-- The index contents after `add`-folding the records `p` into an empty
index for key `k`: Python dict insertion over the pairs `(meta[k], meta)`. -/
def idxOf (k : String) (p : List FileMeta) : List (Value × FileMeta) :=
  p.foldl (fun d m => odUpdate d (attrVal m k) m) []

/-- The last record of a list whose attribute `k` equals `v`: the
last-write-wins winner that the snapshot index is documented to keep. -/
def lastAdded (k : String) (v : Value) : List FileMeta → Option FileMeta
  | [] => none
  | m :: rest =>
    match lastAdded k v rest with
    | some r => some r
    | none => if attrVal m k = v then some m else none

/-! ## Definitions: the Superset Resolver (`get_key_value_superset`) -/

/-- `d.update(e)` on Python dicts: merge `e` into `d` entry by entry;
existing keys keep their position, new keys append in `e`'s order. -/
def dictUpdate (d e : List (Value × FileMeta)) : List (Value × FileMeta) :=
  e.foldl (fun acc p => odUpdate acc p.1 p.2) d

/-- The collection loop of `get_key_value_superset`. -/
def supersetAux (pk : String) (d : List (Value × FileMeta)) :
    List FileMetaCollection → Except String (List (Value × FileMeta))
  | [] => .ok d
  | c :: rest =>
    match c.get_meta_index pk with
    | none => .error "KeyError: primary key not indexed"
    | some kv => supersetAux pk (dictUpdate d kv) rest

/-- `get_key_value_superset`: the ordered union of the primary key's values
over the given collections, first-seen order preserved. -/
def get_key_value_superset (cols : List FileMetaCollection) (pk : String) :
    Except String (List Value) :=
  match supersetAux pk [] cols with
  | .error e => .error e
  | .ok d => .ok (d.map Prod.fst)

/-- The key values of one declared index of a collection, in index order. -/
def indexKeyList (c : FileMetaCollection) (pk : String) : List Value :=
  ((c.get_meta_index pk).getD []).map Prod.fst

/-! ## Definitions: CSV export (`FileMetaCollection.to_csv`) -/

/-- Iterating a Python dict yields its keys, in order. -/
def pyIterKeys (d : List (String × Value)) : List String :=
  d.map Prod.fst

/-- The rows `FileMetaCollection.to_csv` writes: the header row
`csv_writer.writerow(FileMeta.KEYS)` followed by
`csv_writer.writerows(x.to_dict() for x in self.meta_list)` — the writer
iterates each dict, which yields its keys. -/
def to_csv_rows (c : FileMetaCollection) : List (List String) :=
  FileMeta.KEYS :: c.meta_list.map fun x => pyIterKeys x.to_dict

/-- The data row the spec describes for a record: its ten field values as
text, in serialized order (what iterating `x.to_list()` would give). -/
def csvValueRow (m : FileMeta) : List String :=
  m.to_list.map Value.pyStr

/-! ## Definitions: ignore-pattern matching (`ignore_file`) -/

/-- Helper for `*`: does the given matcher accept some suffix of the
string? -/
def globStarAux (f : List Char → Bool) : List Char → Bool
  | [] => f []
  | c :: s' => f (c :: s') || globStarAux f s'

/-- `fnmatch.fnmatch(name, pat)` restricted to the literal, `?` and `*`
glob constructs (the only ones this development exercises): `*` matches any
sequence, i.e. the rest of the pattern must match some suffix. -/
def globMatch : List Char → List Char → Bool
  | [], s => s.isEmpty
  | '*' :: ps, s => globStarAux (globMatch ps) s
  | '?' :: ps, s =>
    match s with
    | [] => false
    | _ :: s' => globMatch ps s'
  | c :: ps, s =>
    match s with
    | [] => false
    | c' :: s' => c = c' && globMatch ps s'

/-- `fnmatch.fnmatch(nm, pat)` on strings (argument order as in Python). -/
def fnmatchB (nm pat : String) : Bool :=
  globMatch pat.data nm.data

/-- The position one past the last `'/'` of a path (`p.rfind("/") + 1`),
or `0` when the path has no slash. -/
def lastSlashPos : List Char → Nat
  | [] => 0
  | c :: t =>
    if lastSlashPos t > 0 then lastSlashPos t + 1
    else if c = '/' then 1 else 0

/-- `posixpath.split`: split off the last path component. The head keeps its
trailing slashes only when it consists solely of slashes (the root). -/
def pySplit (p : String) : String × String :=
  let cs := p.data
  let i := lastSlashPos cs
  let head := cs.take i
  let tail := cs.drop i
  let head' :=
    if head.all (fun c => c = '/') then head
    else (head.reverse.dropWhile (fun c => c = '/')).reverse
  (String.mk head', String.mk tail)

/-- The `while ignore_path:` loop of `ignore_file`, with explicit fuel
(`none` means the given number of iterations did not reach a result). Each
iteration splits off the last component and tests it against every pattern. -/
def ignoreLoop (ignore_files : List String) : Nat → String → Option Bool
  | 0, path => if path = "" then some false else none
  | Nat.succ n, path =>
    if path = "" then some false
    else
      let ht := pySplit path
      if ignore_files.any (fun f => fnmatchB ht.2 f) then some true
      else ignoreLoop ignore_files n ht.1

/-- `ignore_file(ignore_path, ignore_files)`: `False` immediately when the
pattern list is empty (falsy), otherwise the component-matching loop. -/
def ignore_file (fuel : Nat) (ignore_path : String)
    (ignore_files : List String) : Option Bool :=
  if ignore_files.isEmpty then some false
  else ignoreLoop ignore_files fuel ignore_path

/-! ## Definitions: concrete records and snapshots used in claim instances -/

/-- A record with the given hash and mtime over a fixed path `"p"`. -/
def exRec (h : String) (mt : Rat) : FileMeta :=
  ⟨Value.str "f", Value.str "p", Value.str "644", Value.int 0, Value.int 0,
   Value.int 5, Value.num 1, Value.num mt, Value.num 3, Value.str h⟩

/-- A record with the given name and path (all other fields fixed). -/
def pathRec (nm pth : String) : FileMeta :=
  ⟨Value.str nm, Value.str pth, Value.str "644", Value.int 0, Value.int 0,
   Value.int 5, Value.num 1, Value.num 2, Value.num 3, Value.str "h"⟩

/-- Snapshot A of the superset scenario: paths `p1`, `p2`. -/
def colA : Except String FileMetaCollection :=
  addAll (FileMetaCollection.new ["path"] (some "A"))
    [pathRec "p1" "p1", pathRec "p2" "p2"]

/-- Snapshot B of the superset scenario: paths `p2`, `p3`. -/
def colB : Except String FileMetaCollection :=
  addAll (FileMetaCollection.new ["path"] (some "B"))
    [pathRec "p2" "p2", pathRec "p3" "p3"]

/-- The three-record hash scenario of the spec: hash values x, y, x. -/
def exList : List FileMeta := [exRec "x" 2, exRec "y" 2, exRec "x" 7]

/-! ## Theorems: association-list library -/

section AssocThms

variable {α : Type*} {β : Type*} [DecidableEq α]

theorem lookupA_append (d₁ d₂ : List (α × β)) (k : α) :
    lookupA (d₁ ++ d₂) k =
      match lookupA d₁ k with
      | some b => some b
      | none => lookupA d₂ k := by
  induction d₁ with
  | nil => simp [lookupA]
  | cons p t ih =>
    obtain ⟨a, b⟩ := p
    by_cases h : a = k <;> simp [lookupA, h, ih]

theorem lookupA_isSome_iff (d : List (α × β)) (a : α) :
    (lookupA d a).isSome ↔ a ∈ d.map Prod.fst := by
  induction d with
  | nil => simp [lookupA]
  | cons p t ih =>
    obtain ⟨x, b⟩ := p
    by_cases h : x = a
    · subst h
      simp [lookupA]
    · have h' : ¬a = x := fun hh => h hh.symm
      simp [lookupA, h, h', ih]

theorem lookupA_replaceKey_ne (d : List (α × β)) (a x : α) (b : β) (hx : x ≠ a) :
    lookupA (replaceKey a b d) x = lookupA d x := by
  induction d with
  | nil => rfl
  | cons p t ih =>
    obtain ⟨c, v⟩ := p
    by_cases hc : c = a
    · rw [replaceKey, if_pos hc, lookupA, lookupA,
        if_neg (fun h : a = x => hx h.symm), if_neg (fun h : c = x => hx (hc ▸ h).symm), ih]
    · rw [replaceKey, if_neg hc, lookupA, lookupA, ih]

theorem lookupA_replaceKey_self (d : List (α × β)) (a : α) (b : β) :
    lookupA (replaceKey a b d) a =
      if (lookupA d a).isSome then some b else none := by
  induction d with
  | nil => simp [replaceKey, lookupA]
  | cons p t ih =>
    obtain ⟨c, v⟩ := p
    by_cases hc : c = a
    · rw [replaceKey, if_pos hc, lookupA, if_pos rfl, lookupA, if_pos hc]
      simp
    · rw [replaceKey, if_neg hc, lookupA, if_neg hc, lookupA, if_neg hc, ih]

theorem lookupA_odUpdate (d : List (α × β)) (a x : α) (b : β) :
    lookupA (odUpdate d a b) x = if x = a then some b else lookupA d x := by
  unfold odUpdate
  by_cases hd : (lookupA d a).isSome
  · rw [if_pos hd]
    by_cases hx : x = a
    · subst hx
      rw [lookupA_replaceKey_self, if_pos hd, if_pos rfl]
    · rw [lookupA_replaceKey_ne d a x b hx, if_neg hx]
  · rw [if_neg hd, lookupA_append]
    by_cases hx : x = a
    · subst hx
      have hnone : lookupA d x = none := by
        cases h : lookupA d x with
        | none => rfl
        | some v => rw [h] at hd; simp at hd
      simp [hnone, lookupA]
    · cases h : lookupA d x with
      | none =>
        have h' : ¬a = x := fun hh => hx hh.symm
        simp [h, lookupA, hx, h']
      | some v => simp [h, hx]

theorem keys_replaceKey (d : List (α × β)) (a : α) (b : β) :
    (replaceKey a b d).map Prod.fst = d.map Prod.fst := by
  induction d with
  | nil => rfl
  | cons p t ih =>
    obtain ⟨c, v⟩ := p
    by_cases hc : c = a
    · rw [replaceKey, if_pos hc]
      simp [ih, hc]
    · rw [replaceKey, if_neg hc]
      simp [ih]

theorem keys_odUpdate (d : List (α × β)) (a : α) (b : β) :
    (odUpdate d a b).map Prod.fst = seenInsert (d.map Prod.fst) a := by
  unfold odUpdate seenInsert
  by_cases hd : (lookupA d a).isSome
  · rw [if_pos hd, if_pos ((lookupA_isSome_iff d a).1 hd), keys_replaceKey]
  · rw [if_neg hd, if_neg (fun hm => hd ((lookupA_isSome_iff d a).2 hm))]
    simp

theorem firstSeen_nil : firstSeen ([] : List α) = [] := rfl

theorem firstSeen_concat (l : List α) (v : α) :
    firstSeen (l ++ [v]) = seenInsert (firstSeen l) v := by
  simp [firstSeen, List.foldl_append]

theorem mem_firstSeen (l : List α) : ∀ x, x ∈ firstSeen l ↔ x ∈ l := by
  induction l using List.reverseRecOn with
  | nil => intro x; simp [firstSeen_nil]
  | append_singleton l v ih =>
    intro x
    rw [firstSeen_concat]
    unfold seenInsert
    by_cases hv : v ∈ firstSeen l
    · rw [if_pos hv]
      have hvl : v ∈ l := (ih v).1 hv
      simp only [List.mem_append, List.mem_singleton, ih x]
      constructor
      · exact Or.inl
      · rintro (h | rfl)
        · exact h
        · exact hvl
    · rw [if_neg hv]
      simp [ih]

theorem nodup_firstSeen (l : List α) : (firstSeen l).Nodup := by
  induction l using List.reverseRecOn with
  | nil => simp [firstSeen_nil]
  | append_singleton l v ih =>
    rw [firstSeen_concat]
    unfold seenInsert
    by_cases hv : v ∈ firstSeen l
    · rwa [if_pos hv]
    · rw [if_neg hv]
      simp [List.nodup_append, ih, hv]

theorem firstSeen_isPfx (l t : List α) : firstSeen l <+: firstSeen (l ++ t) := by
  induction t using List.reverseRecOn with
  | nil => rw [List.append_nil]
  | append_singleton t v ih =>
    rw [← List.append_assoc, firstSeen_concat]
    unfold seenInsert
    by_cases hv : v ∈ firstSeen (l ++ t)
    · rwa [if_pos hv]
    · rw [if_neg hv]
      exact ih.trans (List.prefix_append _ _)

omit [DecidableEq α] in
theorem length_idxFrom (n : Nat) (l : List α) : (idxFrom n l).length = l.length := by
  induction l generalizing n with
  | nil => rfl
  | cons v t ih => simp [idxFrom, ih]

theorem idxOfA_append_of_mem {l₁ l₂ : List α} {x : α} (h : x ∈ l₁) :
    idxOfA (l₁ ++ l₂) x = idxOfA l₁ x := by
  induction l₁ with
  | nil => cases h
  | cons v t ih =>
    by_cases hv : v = x
    · simp [idxOfA, hv]
    · have hx : x ∈ t := by
        rcases List.mem_cons.1 h with h' | h'
        · exact absurd h'.symm hv
        · exact h'
      simp [idxOfA, hv, ih hx]

theorem idxOfA_append_of_not_mem {l₁ : List α} (l₂ : List α) {x : α} (h : x ∉ l₁) :
    idxOfA (l₁ ++ l₂) x = l₁.length + idxOfA l₂ x := by
  induction l₁ with
  | nil => simp [idxOfA]
  | cons v t ih =>
    have hv : v ≠ x := fun hh => h (hh ▸ List.mem_cons_self v t)
    have hx : x ∉ t := fun hh => h (List.mem_cons_of_mem v hh)
    simp only [List.cons_append, idxOfA, if_neg hv, List.append_eq, ih hx,
      List.length_cons]
    omega

theorem idxOfA_inj {l : List α} {x y : α} (hx : x ∈ l) (hy : y ∈ l)
    (h : idxOfA l x = idxOfA l y) : x = y := by
  induction l with
  | nil => cases hx
  | cons v t ih =>
    by_cases hvx : v = x
    · by_cases hvy : v = y
      · rw [← hvx, hvy]
      · rw [idxOfA, idxOfA, if_pos hvx, if_neg hvy] at h
        omega
    · by_cases hvy : v = y
      · rw [idxOfA, idxOfA, if_neg hvx, if_pos hvy] at h
        omega
      · rw [idxOfA, idxOfA, if_neg hvx, if_neg hvy] at h
        have hx' : x ∈ t := by
          rcases List.mem_cons.1 hx with h' | h'
          · exact absurd h'.symm hvx
          · exact h'
        have hy' : y ∈ t := by
          rcases List.mem_cons.1 hy with h' | h'
          · exact absurd h'.symm hvy
          · exact h'
        exact ih hx' hy' (by omega)

theorem idxOfA_concat_self_of_not_mem {l : List α} {v : α} (h : v ∉ l) :
    idxOfA (l ++ [v]) v = l.length := by
  rw [idxOfA_append_of_not_mem [v] h]
  simp [idxOfA]

theorem lookupA_idxFrom (n : Nat) (l : List α) (x : α) :
    lookupA (idxFrom n l) x = if x ∈ l then some (n + idxOfA l x) else none := by
  induction l generalizing n with
  | nil => simp [idxFrom, lookupA]
  | cons v t ih =>
    by_cases hv : v = x
    · subst hv
      simp [idxFrom, lookupA, idxOfA]
    · simp only [idxFrom, lookupA, if_neg hv, ih, idxOfA]
      by_cases hx : x ∈ t
      · rw [if_pos hx, if_pos (List.mem_cons_of_mem v hx)]
        simp only [Option.some.injEq]
        omega
      · have hnm : x ∉ v :: t := by
          intro h
          rcases List.mem_cons.1 h with h' | h'
          · exact hv h'.symm
          · exact hx h'
        rw [if_neg hx, if_neg hnm]

omit [DecidableEq α] in
theorem idxFrom_concat (n : Nat) (l : List α) (v : α) :
    idxFrom n (l ++ [v]) = idxFrom n l ++ [(v, n + l.length)] := by
  induction l generalizing n with
  | nil => simp [idxFrom]
  | cons x t ih =>
    simp only [List.cons_append, idxFrom, List.append_eq, ih, List.length_cons]
    have h : n + 1 + t.length = n + (t.length + 1) := by omega
    rw [h]

theorem cacheGet_firstSeen (l : List α) (v : α) :
    cacheGet (idxCache (firstSeen l)) v =
      (idxCache (firstSeen (l ++ [v])), idxOfA (firstSeen (l ++ [v])) v) := by
  rw [firstSeen_concat]
  unfold seenInsert cacheGet
  by_cases hv : v ∈ firstSeen l
  · rw [if_pos hv]
    rw [idxCache, lookupA_idxFrom, if_pos hv]
    simp
  · rw [if_neg hv]
    rw [idxCache, lookupA_idxFrom, if_neg hv]
    simp only [idxCache]
    rw [idxFrom_concat, length_idxFrom, idxOfA_concat_self_of_not_mem hv]
    simp

theorem idxOfA_of_isPfx {l₁ l₂ : List α} {v : α} (h : l₁ <+: l₂) (hv : v ∈ l₁) :
    idxOfA l₂ v = idxOfA l₁ v := by
  obtain ⟨t, rfl⟩ := h
  exact idxOfA_append_of_mem hv

theorem idxOfA_firstSeen_of_isPfx {p l : List α} {v : α} (h : p <+: l) (hv : v ∈ p) :
    idxOfA (firstSeen l) v = idxOfA (firstSeen p) v := by
  obtain ⟨t, rfl⟩ := h
  exact idxOfA_of_isPfx (firstSeen_isPfx p t) ((mem_firstSeen p v).2 hv)

theorem lookupA_map_pair {f : α → β} {keys : List α} {k : α} (hk : k ∈ keys) :
    lookupA (keys.map fun x => (x, f x)) k = some (f k) := by
  induction keys with
  | nil => cases hk
  | cons x t ih =>
    rcases List.mem_cons.1 hk with rfl | hm
    · simp [lookupA]
    · by_cases hx : x = k
      · subst hx; simp [lookupA]
      · simp [lookupA, hx, ih hm]

theorem replaceKey_map_pair {f : α → β} (keys : List α) (k : α) (b : β) :
    replaceKey k b (keys.map fun x => (x, f x)) =
      keys.map fun x => (x, if x = k then b else f x) := by
  induction keys with
  | nil => rfl
  | cons x t ih =>
    simp only [List.map_cons, replaceKey, ih]
    by_cases hx : x = k
    · rw [if_pos hx, if_pos hx, hx]
    · rw [if_neg hx, if_neg hx]

theorem odUpdate_map_pair {f : α → β} {keys : List α} {k : α} (hk : k ∈ keys) (b : β) :
    odUpdate (keys.map fun x => (x, f x)) k b =
      keys.map fun x => (x, if x = k then b else f x) := by
  unfold odUpdate
  rw [if_pos (by rw [lookupA_map_pair hk]; rfl), replaceKey_map_pair]

theorem odUpdate_of_lookupA_none (d : List (α × β)) (a : α) (b : β)
    (h : lookupA d a = none) : odUpdate d a b = d ++ [(a, b)] := by
  unfold odUpdate
  rw [if_neg (by rw [h]; simp)]

end AssocThms

/-! ## Theorems: the Record data model -/

theorem getItem_eq_attrVal (m : FileMeta) (k : String) (hk : k ∈ ATTRS) :
    m.getItem k = some (attrVal m k) := by
  simp only [ATTRS, List.mem_cons, List.not_mem_nil, or_false] at hk
  rcases hk with rfl | rfl | rfl | rfl | rfl | rfl | rfl | rfl | rfl | rfl | rfl <;> rfl

theorem from_dict_to_dict (m : FileMeta) :
    FileMeta.from_dict m.to_dict = some m := rfl

theorem keys_to_dict (m : FileMeta) :
    m.to_dict.map Prod.fst = FileMeta.KEYS := rfl

/-! ## Theorems: the Diff Grouping Engine -/

section AssocThms2

variable {α : Type*} {β : Type*} [DecidableEq α]

theorem lookupA_eq_none_iff (d : List (α × β)) (a : α) :
    lookupA d a = none ↔ a ∉ d.map Prod.fst := by
  constructor
  · intro h hm
    have hs := (lookupA_isSome_iff d a).2 hm
    rw [h] at hs
    simp at hs
  · intro h
    cases hl : lookupA d a with
    | none => rfl
    | some b => exact absurd ((lookupA_isSome_iff d a).1 (by rw [hl]; rfl)) h

end AssocThms2

theorem attrVals_concat (k : String) (p : List FileMeta) (m : FileMeta) :
    attrVals k (p ++ [m]) = attrVals k p ++ [attrVal m k] := by
  simp [attrVals]

theorem keyLoop_go (m : FileMeta) (p ms : List FileMeta) (hpm : p ++ [m] <+: ms)
    (todo : List String) :
    ∀ done : List String, (done ++ todo).Nodup → (∀ k ∈ todo, k ∈ ATTRS) →
      keyLoop m
          ((done ++ todo).map fun x =>
            (x, idxCache (firstSeen (attrVals x (if x ∈ todo then p else p ++ [m])))))
          (done.map fun k => (k, perAttrId ms k m)) todo =
        .ok
          ((done ++ todo).map fun x =>
            (x, idxCache (firstSeen (attrVals x (p ++ [m])))),
           (done ++ todo).map fun k => (k, perAttrId ms k m)) := by
  induction todo with
  | nil =>
    intro done hnd hv
    have hsc : ((done ++ ([] : List String)).map fun x =>
        (x, idxCache (firstSeen (attrVals x
          (if x ∈ ([] : List String) then p else p ++ [m])))))
        = (done ++ ([] : List String)).map fun x =>
            (x, idxCache (firstSeen (attrVals x (p ++ [m])))) := by
      apply List.map_congr_left
      intro x _
      rw [if_neg (List.not_mem_nil x)]
    rw [hsc, keyLoop]
    simp
  | cons key rest ih =>
    intro done hnd hv
    have hkmem : key ∈ done ++ key :: rest := by simp
    have hkA : key ∈ ATTRS := hv key (List.mem_cons_self key rest)
    have hnd' : (done.Nodup ∧ (key :: rest).Nodup) ∧ done.Disjoint (key :: rest) := by
      have := List.nodup_append.1 hnd
      exact ⟨⟨this.1, this.2.1⟩, this.2.2⟩
    have hknotrest : key ∉ rest := (List.nodup_cons.1 hnd'.1.2).1
    have hknotdone : key ∉ done := fun hkd =>
      hnd'.2 hkd (List.mem_cons_self key rest)
    have hif : (if key ∈ key :: rest then p else p ++ [m]) = p :=
      if_pos (List.mem_cons_self key rest)
    simp only [keyLoop, lookupA_map_pair hkmem, getItem_eq_attrVal m key hkA, hif]
    rw [cacheGet_firstSeen (attrVals key p) (attrVal m key), ← attrVals_concat]
    have hpfx : attrVals key (p ++ [m]) <+: attrVals key ms := hpm.map _
    have hvmem : attrVal m key ∈ attrVals key (p ++ [m]) :=
      List.mem_map_of_mem _ (by simp)
    have hidx : idxOfA (firstSeen (attrVals key (p ++ [m]))) (attrVal m key) =
        perAttrId ms key m := by
      unfold perAttrId
      exact (idxOfA_firstSeen_of_isPfx hpfx hvmem).symm
    rw [hidx]
    rw [odUpdate_map_pair hkmem]
    have hglook : lookupA (done.map fun k => (k, perAttrId ms k m)) key = none := by
      rw [lookupA_eq_none_iff]
      simp [hknotdone]
    rw [odUpdate_of_lookupA_none _ _ _ hglook]
    have hgroups : (done.map fun k => (k, perAttrId ms k m)) ++
        [(key, perAttrId ms key m)] =
        (done ++ [key]).map fun k => (k, perAttrId ms k m) := by
      simp
    rw [hgroups]
    have hsc' : ((done ++ key :: rest).map fun x =>
        (x, if x = key then idxCache (firstSeen (attrVals key (p ++ [m])))
            else idxCache (firstSeen (attrVals x (if x ∈ key :: rest then p else p ++ [m])))))
        = ((done ++ [key]) ++ rest).map fun x =>
            (x, idxCache (firstSeen (attrVals x (if x ∈ rest then p else p ++ [m])))) := by
      rw [show done ++ key :: rest = (done ++ [key]) ++ rest by simp]
      apply List.map_congr_left
      intro x _
      by_cases hxk : x = key
      · subst hxk
        rw [if_pos rfl, if_neg hknotrest]
      · rw [if_neg hxk]
        have : (x ∈ key :: rest) ↔ (x ∈ rest) := by
          simp [List.mem_cons, hxk]
        by_cases hxr : x ∈ rest
        · rw [if_pos (this.2 hxr), if_pos hxr]
        · rw [if_neg (fun hh => hxr (this.1 hh)), if_neg hxr]
    rw [hsc']
    have hnd2 : ((done ++ [key]) ++ rest).Nodup := by
      rw [show (done ++ [key]) ++ rest = done ++ key :: rest by simp]
      exact hnd
    have hv2 : ∀ k ∈ rest, k ∈ ATTRS := fun k hk =>
      hv k (List.mem_cons_of_mem key hk)
    have := ih (done ++ [key]) hnd2 hv2
    rw [this]
    rw [show (done ++ [key]) ++ rest = done ++ key :: rest by simp]

theorem groupDiffAux_go (keys : List String) (hnd : keys.Nodup)
    (hv : ∀ k ∈ keys, k ∈ ATTRS) (ms : List FileMeta) :
    ∀ (r p : List FileMeta), ms = p ++ r →
      groupDiffAux keys (keys.map fun x => (x, idxCache (firstSeen (attrVals x p))))
          (idxCache (firstSeen (p.map (tupleAt keys ms)))) (r.map some) =
        .ok (r.map fun m => (some m, tupleAt keys ms m, combinedAt keys ms m)) := by
  intro r
  induction r with
  | nil =>
    intro p hp
    simp [groupDiffAux]
  | cons m rest ih =>
    intro p hp
    have hpm : p ++ [m] <+: ms := ⟨rest, by rw [hp]; simp⟩
    have hkl := keyLoop_go m p ms hpm keys [] (by simpa using hnd) hv
    simp only [List.nil_append, List.map_nil] at hkl
    have hsc0 : (keys.map fun x => (x, idxCache (firstSeen (attrVals x p))))
        = keys.map fun x =>
            (x, idxCache (firstSeen (attrVals x (if x ∈ keys then p else p ++ [m])))) := by
      apply List.map_congr_left
      intro x hx
      rw [if_pos hx]
    simp only [List.map_cons, groupDiffAux]
    rw [hsc0, hkl]
    have hgt : (keys.map fun k => (k, perAttrId ms k m)) = tupleAt keys ms m := rfl
    rw [hgt]
    dsimp only
    rw [cacheGet_firstSeen (p.map (tupleAt keys ms)) (tupleAt keys ms m)]
    have hmapcat : p.map (tupleAt keys ms) ++ [tupleAt keys ms m]
        = (p ++ [m]).map (tupleAt keys ms) := by simp
    rw [hmapcat]
    have htpfx : (p ++ [m]).map (tupleAt keys ms) <+: ms.map (tupleAt keys ms) :=
      hpm.map _
    have htmem : tupleAt keys ms m ∈ (p ++ [m]).map (tupleAt keys ms) :=
      List.mem_map_of_mem _ (by simp)
    have hcomb : idxOfA (firstSeen ((p ++ [m]).map (tupleAt keys ms)))
        (tupleAt keys ms m) = combinedAt keys ms m := by
      unfold combinedAt
      exact (idxOfA_firstSeen_of_isPfx htpfx htmem).symm
    rw [hcomb]
    rw [ih (p ++ [m]) (by rw [hp]; simp)]

theorem group_diff_spec (keys : List String) (hnd : keys.Nodup)
    (hv : ∀ k ∈ keys, k ∈ ATTRS) (ms : List FileMeta) :
    group_diff keys (ms.map some) =
      .ok (ms.map fun m => (some m, tupleAt keys ms m, combinedAt keys ms m)) := by
  have h := groupDiffAux_go keys hnd hv ms ms [] (by simp)
  simp only [attrVals, List.map_nil, firstSeen_nil, idxCache, idxFrom] at h
  simpa [group_diff, idxCache, idxFrom] using h

theorem perAttrId_eq_iff (ms : List FileMeta) (k : String) (m₁ m₂ : FileMeta)
    (h₁ : m₁ ∈ ms) (h₂ : m₂ ∈ ms) :
    perAttrId ms k m₁ = perAttrId ms k m₂ ↔ attrVal m₁ k = attrVal m₂ k := by
  unfold perAttrId
  constructor
  · intro h
    have hm₁ : attrVal m₁ k ∈ firstSeen (attrVals k ms) :=
      (mem_firstSeen _ _).2 (List.mem_map_of_mem _ h₁)
    have hm₂ : attrVal m₂ k ∈ firstSeen (attrVals k ms) :=
      (mem_firstSeen _ _).2 (List.mem_map_of_mem _ h₂)
    exact idxOfA_inj hm₁ hm₂ h
  · intro h
    rw [h]

theorem map_pair_eq_iff {γ : Type*} (keys : List String) (f g : String → γ) :
    ((keys.map fun k => (k, f k)) = keys.map fun k => (k, g k)) ↔
      ∀ k ∈ keys, f k = g k := by
  induction keys with
  | nil => simp
  | cons x t ih => simp [ih]

theorem tupleAt_eq_iff (keys : List String) (ms : List FileMeta) (m₁ m₂ : FileMeta)
    (h₁ : m₁ ∈ ms) (h₂ : m₂ ∈ ms) :
    tupleAt keys ms m₁ = tupleAt keys ms m₂ ↔
      ∀ k ∈ keys, attrVal m₁ k = attrVal m₂ k := by
  unfold tupleAt
  rw [map_pair_eq_iff]
  constructor
  · intro h k hk
    exact (perAttrId_eq_iff ms k m₁ m₂ h₁ h₂).1 (h k hk)
  · intro h k hk
    exact (perAttrId_eq_iff ms k m₁ m₂ h₁ h₂).2 (h k hk)

theorem combinedAt_eq_iff (keys : List String) (ms : List FileMeta)
    (m₁ m₂ : FileMeta) (h₁ : m₁ ∈ ms) (h₂ : m₂ ∈ ms) :
    combinedAt keys ms m₁ = combinedAt keys ms m₂ ↔
      ∀ k ∈ keys, attrVal m₁ k = attrVal m₂ k := by
  rw [← tupleAt_eq_iff keys ms m₁ m₂ h₁ h₂]
  unfold combinedAt
  constructor
  · intro h
    have hm₁ : tupleAt keys ms m₁ ∈ firstSeen (ms.map (tupleAt keys ms)) :=
      (mem_firstSeen _ _).2 (List.mem_map_of_mem _ h₁)
    have hm₂ : tupleAt keys ms m₂ ∈ firstSeen (ms.map (tupleAt keys ms)) :=
      (mem_firstSeen _ _).2 (List.mem_map_of_mem _ h₂)
    exact idxOfA_inj hm₁ hm₂ h
  · intro h
    rw [h]

theorem perAttrId_new (ms : List FileMeta) (k : String) (i : Nat)
    (hi : i < ms.length)
    (hnew : attrVal (ms.getD i default) k ∉ attrVals k (ms.take i)) :
    perAttrId ms k (ms.getD i default) =
      (firstSeen (attrVals k (ms.take i))).length := by
  have hgd : ms.getD i default = ms[i] := List.getD_eq_getElem ms default hi
  have htake : ms.take (i + 1) = ms.take i ++ [ms[i]] :=
    (List.take_concat_get' ms i hi).symm
  have hpfx : attrVals k (ms.take (i + 1)) <+: attrVals k ms :=
    (List.take_prefix (i + 1) ms).map _
  have hvmem : attrVal (ms.getD i default) k ∈ attrVals k (ms.take (i + 1)) := by
    rw [hgd]
    refine List.mem_map_of_mem _ ?_
    rw [htake]
    exact List.mem_append.2 (Or.inr (List.mem_singleton.2 rfl))
  unfold perAttrId
  rw [idxOfA_firstSeen_of_isPfx hpfx hvmem, htake, ← hgd, attrVals_concat,
    firstSeen_concat]
  unfold seenInsert
  have hnfs : attrVal (ms.getD i default) k ∉ firstSeen (attrVals k (ms.take i)) :=
    fun h => hnew ((mem_firstSeen _ _).1 h)
  rw [if_neg hnfs, idxOfA_concat_self_of_not_mem hnfs]

/-! ## Theorems: Snapshots and the Superset Resolver -/

theorem idxOf_concat (k : String) (p : List FileMeta) (m : FileMeta) :
    idxOf k (p ++ [m]) = odUpdate (idxOf k p) (attrVal m k) m := by
  simp [idxOf, List.foldl_append]

theorem lastAdded_concat (k : String) (v : Value) (p : List FileMeta)
    (m : FileMeta) :
    lastAdded k v (p ++ [m]) =
      if attrVal m k = v then some m else lastAdded k v p := by
  induction p with
  | nil =>
    by_cases h : attrVal m k = v <;> simp [lastAdded, h]
  | cons x p ih =>
    by_cases h : attrVal m k = v
    · rw [if_pos h] at ih ⊢
      simp only [List.cons_append, lastAdded, List.append_eq, ih]
    · rw [if_neg h] at ih ⊢
      simp only [List.cons_append, lastAdded, List.append_eq, ih]

theorem lookupA_idxOf (k : String) (v : Value) (p : List FileMeta) :
    lookupA (idxOf k p) v = lastAdded k v p := by
  induction p using List.reverseRecOn with
  | nil => rfl
  | append_singleton p m ih =>
    rw [idxOf_concat, lookupA_odUpdate, lastAdded_concat]
    by_cases h : v = attrVal m k
    · rw [if_pos h, if_pos h.symm]
    · rw [if_neg h, if_neg (fun hh => h hh.symm), ih]

theorem addIndex_go (m : FileMeta) (p : List FileMeta) (todo : List String) :
    ∀ done : List String, (done ++ todo).Nodup → (∀ k ∈ todo, k ∈ ATTRS) →
      addIndex m
          ((done ++ todo).map fun x =>
            (x, idxOf x (if x ∈ todo then p else p ++ [m])))
          todo =
        .ok ((done ++ todo).map fun x => (x, idxOf x (p ++ [m]))) := by
  induction todo with
  | nil =>
    intro done hnd hv
    have hmi : ((done ++ ([] : List String)).map fun x =>
        (x, idxOf x (if x ∈ ([] : List String) then p else p ++ [m])))
        = (done ++ ([] : List String)).map fun x => (x, idxOf x (p ++ [m])) := by
      apply List.map_congr_left
      intro x _
      rw [if_neg (List.not_mem_nil x)]
    rw [hmi, addIndex]
  | cons key rest ih =>
    intro done hnd hv
    have hkmem : key ∈ done ++ key :: rest := by simp
    have hkA : key ∈ ATTRS := hv key (List.mem_cons_self key rest)
    have hnd' : (done.Nodup ∧ (key :: rest).Nodup) ∧ done.Disjoint (key :: rest) := by
      have := List.nodup_append.1 hnd
      exact ⟨⟨this.1, this.2.1⟩, this.2.2⟩
    have hknotrest : key ∉ rest := (List.nodup_cons.1 hnd'.1.2).1
    have hif : (if key ∈ key :: rest then p else p ++ [m]) = p :=
      if_pos (List.mem_cons_self key rest)
    simp only [addIndex, lookupA_map_pair hkmem, getItem_eq_attrVal m key hkA, hif]
    rw [← idxOf_concat, odUpdate_map_pair hkmem]
    have hsc' : ((done ++ key :: rest).map fun x =>
        (x, if x = key then idxOf key (p ++ [m])
            else idxOf x (if x ∈ key :: rest then p else p ++ [m])))
        = ((done ++ [key]) ++ rest).map fun x =>
            (x, idxOf x (if x ∈ rest then p else p ++ [m])) := by
      rw [show done ++ key :: rest = (done ++ [key]) ++ rest by simp]
      apply List.map_congr_left
      intro x _
      by_cases hxk : x = key
      · subst hxk
        rw [if_pos rfl, if_neg hknotrest]
      · rw [if_neg hxk]
        have hmemiff : (x ∈ key :: rest) ↔ (x ∈ rest) := by
          simp [List.mem_cons, hxk]
        by_cases hxr : x ∈ rest
        · rw [if_pos (hmemiff.2 hxr), if_pos hxr]
        · rw [if_neg (fun hh => hxr (hmemiff.1 hh)), if_neg hxr]
    rw [hsc']
    have hnd2 : ((done ++ [key]) ++ rest).Nodup := by
      rw [show (done ++ [key]) ++ rest = done ++ key :: rest by simp]
      exact hnd
    have hv2 : ∀ k ∈ rest, k ∈ ATTRS := fun k hk =>
      hv k (List.mem_cons_of_mem key hk)
    have := ih (done ++ [key]) hnd2 hv2
    rw [this]
    rw [show (done ++ [key]) ++ rest = done ++ key :: rest by simp]

theorem addAll_go (keys : List String) (hnd : keys.Nodup)
    (hv : ∀ k ∈ keys, k ∈ ATTRS) (nm : Option String) (ms : List FileMeta) :
    ∀ p : List FileMeta,
      addAll ⟨nm, keys, p, keys.map fun x => (x, idxOf x p)⟩ ms =
        .ok ⟨nm, keys, p ++ ms, keys.map fun x => (x, idxOf x (p ++ ms))⟩ := by
  induction ms with
  | nil =>
    intro p
    simp [addAll]
  | cons m rest ih =>
    intro p
    have hai := addIndex_go m p keys [] (by simpa using hnd) hv
    simp only [List.nil_append] at hai
    have hsc0 : (keys.map fun x => (x, idxOf x p))
        = keys.map fun x => (x, idxOf x (if x ∈ keys then p else p ++ [m])) := by
      apply List.map_congr_left
      intro x hx
      rw [if_pos hx]
    simp only [addAll, FileMetaCollection.add]
    rw [hsc0, hai]
    dsimp only
    rw [ih (p ++ [m])]
    rw [show (p ++ [m]) ++ rest = p ++ m :: rest by simp]

theorem addAll_new_spec (keys : List String) (hnd : keys.Nodup)
    (hv : ∀ k ∈ keys, k ∈ ATTRS) (nm : Option String) (ms : List FileMeta) :
    addAll (FileMetaCollection.new keys nm) ms =
      .ok ⟨nm, keys, ms, keys.map fun x => (x, idxOf x ms)⟩ := by
  have h := addAll_go keys hnd hv nm ms []
  simp only [List.nil_append] at h
  have hinit : (keys.map fun x => (x, idxOf x ([] : List FileMeta)))
      = keys.map fun k => (k, ([] : List (Value × FileMeta))) := by
    apply List.map_congr_left
    intro x _
    rfl
  rw [FileMetaCollection.new, ← hinit]
  exact h

theorem keys_dictUpdate (d e : List (Value × FileMeta)) :
    (dictUpdate d e).map Prod.fst =
      (e.map Prod.fst).foldl seenInsert (d.map Prod.fst) := by
  induction e generalizing d with
  | nil => rfl
  | cons q t ih =>
    simp only [dictUpdate, List.foldl_cons, List.map_cons]
    have h := ih (odUpdate d q.1 q.2)
    simp only [dictUpdate] at h
    rw [h, keys_odUpdate]

theorem supersetAux_keys (pk : String) (cols : List FileMetaCollection) :
    ∀ d : List (Value × FileMeta),
      (∀ c ∈ cols, (c.get_meta_index pk).isSome) →
      ∃ d', supersetAux pk d cols = .ok d' ∧
        d'.map Prod.fst =
          ((cols.map fun c => indexKeyList c pk).flatten).foldl seenInsert
            (d.map Prod.fst) := by
  induction cols with
  | nil =>
    intro d _
    exact ⟨d, rfl, by simp⟩
  | cons c rest ih =>
    intro d h
    have hc := h c (List.mem_cons_self c rest)
    obtain ⟨kv, hkv⟩ := Option.isSome_iff_exists.1 hc
    obtain ⟨d', hd', hkeys⟩ :=
      ih (dictUpdate d kv) (fun c' hc' => h c' (List.mem_cons_of_mem c hc'))
    refine ⟨d', ?_, ?_⟩
    · simp only [supersetAux, hkv]
      exact hd'
    · rw [hkeys, keys_dictUpdate]
      have hind : indexKeyList c pk = kv.map Prod.fst := by
        simp [indexKeyList, hkv]
      simp only [List.map_cons, List.flatten_cons, hind, List.foldl_append]

theorem superset_spec (cols : List FileMetaCollection) (pk : String)
    (h : ∀ c ∈ cols, (c.get_meta_index pk).isSome) :
    get_key_value_superset cols pk =
      .ok (firstSeen ((cols.map fun c => indexKeyList c pk).flatten)) := by
  obtain ⟨d', hd', hkeys⟩ := supersetAux_keys pk cols [] h
  simp only [get_key_value_superset, hd', hkeys, List.map_nil]
  rfl

theorem fromJsonData_map_to_dict (ms : List FileMeta) :
    ∀ c : FileMetaCollection,
      fromJsonData c (ms.map FileMeta.to_dict) = addAll c ms := by
  induction ms with
  | nil => intro c; rfl
  | cons m rest ih =>
    intro c
    simp only [List.map_cons, fromJsonData, from_dict_to_dict, addAll]
    cases h : c.add m with
    | error e => rfl
    | ok c' => exact ih c'

/-! ## Claim theorems -/

/-- C1: the claim that the Diff Grouping Engine still succeeds when the
input contains an absent entry, giving it a distinguished group id, fails on
the code. First conjunct: a snapshot lacking a path makes `get_meta` return
Python `None` (as `cmd_diff` builds `meta_list`). Second conjunct (the
spec's example — hash values x, y, x followed by an absent fourth entry):
`group_diff` then evaluates `meta[key]` on `None` and raises `TypeError`
instead of computing any group id. -/
theorem claim_C1_eval :
    ((do
        let c ← addAll (FileMetaCollection.new ["path"] none) [pathRec "q" "q"]
        Except.ok (c.get_meta "path" (Value.str "p"))) :
          Except String (Option (Option FileMeta))) = .ok (some none)
    ∧ group_diff ["hash", "size"]
        [some (exRec "x" 2), some (exRec "y" 2), some (exRec "x" 7), none] =
      .error "TypeError: NoneType object is not subscriptable" :=
  ⟨rfl, rfl⟩

/-- C2: for every nodup list of interesting attribute names and every list
of Records, `group_diff` succeeds and assigns per-attribute group ids in
first-seen order in one pass: the per-record row stores, under each key, the
first-seen rank of the record's value (conjuncts 1 and 2); two records get
the same per-attribute id iff their values are equal (conjunct 3); a record
whose value is new at position `i` gets id = number of distinct values seen
before it, so the first distinct value gets 0, the second 1, and so on
(conjunct 4); and for hash values x, y, x the hash ids are 0, 1, 0
(conjunct 5). -/
theorem claim_C2 (keys : List String) (hnd : keys.Nodup)
    (hv : ∀ k ∈ keys, k ∈ ATTRS) (ms : List FileMeta) (k : String)
    (hk : k ∈ keys) (m₁ m₂ : FileMeta) (h₁ : m₁ ∈ ms) (h₂ : m₂ ∈ ms)
    (i : Nat) (hi : i < ms.length) :
    group_diff keys (ms.map some) =
        .ok (ms.map fun m => (some m, tupleAt keys ms m, combinedAt keys ms m))
    ∧ lookupA (tupleAt keys ms m₁) k = some (perAttrId ms k m₁)
    ∧ (perAttrId ms k m₁ = perAttrId ms k m₂ ↔ attrVal m₁ k = attrVal m₂ k)
    ∧ (attrVal (ms.getD i default) k ∉ attrVals k (ms.take i) →
        perAttrId ms k (ms.getD i default) =
          (firstSeen (attrVals k (ms.take i))).length)
    ∧ group_diff ["hash"]
        [some (exRec "x" 2), some (exRec "y" 2), some (exRec "x" 7)] =
      .ok [(some (exRec "x" 2), [("hash", 0)], 0),
           (some (exRec "y" 2), [("hash", 1)], 1),
           (some (exRec "x" 7), [("hash", 0)], 0)] := by
  refine ⟨group_diff_spec keys hnd hv ms, ?_,
    perAttrId_eq_iff ms k m₁ m₂ h₁ h₂,
    fun hnew => perAttrId_new ms k i hi hnew, by rfl⟩
  unfold tupleAt
  exact lookupA_map_pair hk

/-- C2 witness: the theorem instantiated at the spec's hash scenario. -/
theorem claim_C2_witness :
    (["hash"] : List String).Nodup
    ∧ (∀ k ∈ (["hash"] : List String), k ∈ ATTRS)
    ∧ "hash" ∈ (["hash"] : List String)
    ∧ exRec "x" 2 ∈ exList ∧ exRec "x" 7 ∈ exList ∧ 1 < exList.length
    ∧ (group_diff ["hash"] (exList.map some) =
          .ok (exList.map fun m =>
            (some m, tupleAt ["hash"] exList m, combinedAt ["hash"] exList m))
      ∧ lookupA (tupleAt ["hash"] exList (exRec "x" 2)) "hash" =
          some (perAttrId exList "hash" (exRec "x" 2))
      ∧ (perAttrId exList "hash" (exRec "x" 2) =
            perAttrId exList "hash" (exRec "x" 7) ↔
          attrVal (exRec "x" 2) "hash" = attrVal (exRec "x" 7) "hash")
      ∧ (attrVal (exList.getD 1 default) "hash" ∉ attrVals "hash" (exList.take 1) →
          perAttrId exList "hash" (exList.getD 1 default) =
            (firstSeen (attrVals "hash" (exList.take 1))).length)
      ∧ group_diff ["hash"]
          [some (exRec "x" 2), some (exRec "y" 2), some (exRec "x" 7)] =
        .ok [(some (exRec "x" 2), [("hash", 0)], 0),
             (some (exRec "y" 2), [("hash", 1)], 1),
             (some (exRec "x" 7), [("hash", 0)], 0)]) :=
  ⟨by decide, by decide, by decide, by decide, by decide, by decide,
   claim_C2 ["hash"] (by decide) (by decide) exList "hash" (by decide)
     (exRec "x" 2) (exRec "x" 7) (by decide) (by decide) 1 (by decide)⟩

/-- C3: the Diff Grouping Engine is deterministic (conjunct 1: re-running on
the same ordered input is the same computation, and conjunct 2 pins its
output) and its co-grouping is order-invariant: for any permutation `ms'` of
the input and any two records of the input, the two records receive equal
per-attribute ids in the permuted run iff they do in the original run
(conjunct 4), and likewise for the combined ids (conjunct 5); the integer
labels themselves may differ, the partition may not. -/
theorem claim_C3 (keys : List String) (hnd : keys.Nodup)
    (hv : ∀ k ∈ keys, k ∈ ATTRS) (ms ms' : List FileMeta) (hperm : ms.Perm ms')
    (m₁ m₂ : FileMeta) (h₁ : m₁ ∈ ms) (h₂ : m₂ ∈ ms) :
    group_diff keys (ms.map some) = group_diff keys (ms.map some)
    ∧ group_diff keys (ms.map some) =
        .ok (ms.map fun m => (some m, tupleAt keys ms m, combinedAt keys ms m))
    ∧ group_diff keys (ms'.map some) =
        .ok (ms'.map fun m => (some m, tupleAt keys ms' m, combinedAt keys ms' m))
    ∧ (∀ k ∈ keys,
        (perAttrId ms' k m₁ = perAttrId ms' k m₂ ↔
          perAttrId ms k m₁ = perAttrId ms k m₂))
    ∧ (combinedAt keys ms' m₁ = combinedAt keys ms' m₂ ↔
        combinedAt keys ms m₁ = combinedAt keys ms m₂) := by
  have h₁' : m₁ ∈ ms' := hperm.mem_iff.1 h₁
  have h₂' : m₂ ∈ ms' := hperm.mem_iff.1 h₂
  refine ⟨rfl, group_diff_spec keys hnd hv ms, group_diff_spec keys hnd hv ms',
    ?_, ?_⟩
  · intro k hk
    rw [perAttrId_eq_iff ms' k m₁ m₂ h₁' h₂', perAttrId_eq_iff ms k m₁ m₂ h₁ h₂]
  · rw [combinedAt_eq_iff keys ms' m₁ m₂ h₁' h₂',
      combinedAt_eq_iff keys ms m₁ m₂ h₁ h₂]

/-- C3 witness: the theorem instantiated at the hash scenario and its
reversal. -/
theorem claim_C3_witness :
    (["hash"] : List String).Nodup
    ∧ (∀ k ∈ (["hash"] : List String), k ∈ ATTRS)
    ∧ exList.Perm exList.reverse
    ∧ exRec "x" 2 ∈ exList ∧ exRec "x" 7 ∈ exList
    ∧ (group_diff ["hash"] (exList.map some) = group_diff ["hash"] (exList.map some)
      ∧ group_diff ["hash"] (exList.map some) =
          .ok (exList.map fun m =>
            (some m, tupleAt ["hash"] exList m, combinedAt ["hash"] exList m))
      ∧ group_diff ["hash"] (exList.reverse.map some) =
          .ok (exList.reverse.map fun m =>
            (some m, tupleAt ["hash"] exList.reverse m,
             combinedAt ["hash"] exList.reverse m))
      ∧ (∀ k ∈ (["hash"] : List String),
          (perAttrId exList.reverse k (exRec "x" 2) =
              perAttrId exList.reverse k (exRec "x" 7) ↔
            perAttrId exList k (exRec "x" 2) = perAttrId exList k (exRec "x" 7)))
      ∧ (combinedAt ["hash"] exList.reverse (exRec "x" 2) =
            combinedAt ["hash"] exList.reverse (exRec "x" 7) ↔
          combinedAt ["hash"] exList (exRec "x" 2) =
            combinedAt ["hash"] exList (exRec "x" 7))) :=
  ⟨by decide, by decide, by decide, by decide, by decide,
   claim_C3 ["hash"] (by decide) (by decide) exList exList.reverse (by decide)
     (exRec "x" 2) (exRec "x" 7) (by decide) (by decide)⟩

/-- C4: the Superset Resolver returns the ordered union of the primary key's
values over the input snapshots: every value appears exactly once (Nodup),
a value appears iff some input snapshot holds it, and the order is the
first-seen order over the snapshots processed left-to-right (the `firstSeen`
of the concatenated per-snapshot key lists). The two closed conjuncts are
the spec's example: A = [p1, p2] and B = [p2, p3] resolve to [p1, p2, p3],
and in the order B, A to [p2, p3, p1]. -/
theorem claim_C4 (cols : List FileMetaCollection) (pk : String)
    (h : ∀ c ∈ cols, (c.get_meta_index pk).isSome) :
    (∃ l, get_key_value_superset cols pk = .ok l
      ∧ l = firstSeen ((cols.map fun c => indexKeyList c pk).flatten)
      ∧ l.Nodup
      ∧ ∀ v, v ∈ l ↔ v ∈ (cols.map fun c => indexKeyList c pk).flatten)
    ∧ (do
        let a ← colA
        let b ← colB
        get_key_value_superset [a, b] "path") =
      .ok [Value.str "p1", Value.str "p2", Value.str "p3"]
    ∧ (do
        let a ← colA
        let b ← colB
        get_key_value_superset [b, a] "path") =
      .ok [Value.str "p2", Value.str "p3", Value.str "p1"] := by
  refine ⟨⟨firstSeen ((cols.map fun c => indexKeyList c pk).flatten),
    superset_spec cols pk h, rfl, nodup_firstSeen _, fun v => mem_firstSeen _ v⟩,
    rfl, rfl⟩

/-- C4 witness: the theorem instantiated at a single fresh snapshot. -/
theorem claim_C4_witness :
    (∀ c ∈ [FileMetaCollection.new ["path"] (some "W")],
        (FileMetaCollection.get_meta_index c "path").isSome)
    ∧ ((∃ l, get_key_value_superset [FileMetaCollection.new ["path"] (some "W")]
            "path" = .ok l
        ∧ l = firstSeen (([FileMetaCollection.new ["path"] (some "W")].map
            fun c => indexKeyList c "path").flatten)
        ∧ l.Nodup
        ∧ ∀ v, v ∈ l ↔
            v ∈ ([FileMetaCollection.new ["path"] (some "W")].map
              fun c => indexKeyList c "path").flatten)
      ∧ (do
          let a ← colA
          let b ← colB
          get_key_value_superset [a, b] "path") =
        .ok [Value.str "p1", Value.str "p2", Value.str "p3"]
      ∧ (do
          let a ← colA
          let b ← colB
          get_key_value_superset [b, a] "path") =
        .ok [Value.str "p2", Value.str "p3", Value.str "p1"]) :=
  ⟨by decide,
   claim_C4 [FileMetaCollection.new ["path"] (some "W")] "path" (by decide)⟩

/-- C5: the persisted format round-trips losslessly. For every Record, the
serialized dictionary has exactly the ten keys in order, reconstructing from
it gives back a Record with identical fields, and the serialized key "hash"
holds the Record's exposed hash field. For every Snapshot, serializing every
record and loading the result as `from_json_file` does reproduces exactly
the original record list (and its path index). -/
theorem claim_C5 :
    (∀ m : FileMeta,
        m.to_dict.map Prod.fst = FileMeta.KEYS
        ∧ FileMeta.from_dict m.to_dict = some m
        ∧ lookupA m.to_dict "hash" = some m.hash_value)
    ∧ ∀ (nm : Option String) (ms : List FileMeta),
        fromJsonData (FileMetaCollection.new ["path"] nm)
            (ms.map FileMeta.to_dict) =
          .ok ⟨nm, ["path"], ms, [("path", idxOf "path" ms)]⟩ := by
  refine ⟨fun m => ⟨keys_to_dict m, from_dict_to_dict m, rfl⟩, ?_⟩
  intro nm ms
  rw [fromJsonData_map_to_dict ms (FileMetaCollection.new ["path"] nm),
    addAll_new_spec ["path"] (by decide) (by decide) nm ms]
  rfl

/-- C6: for every snapshot built by adding records in order, the ordered
record list contains every added record in insertion order (duplicates
included), and for every declared index key the index maps a key value to
the last record added with that value (last-write-wins), never an error. -/
theorem claim_C6 (keys : List String) (hnd : keys.Nodup)
    (hv : ∀ k ∈ keys, k ∈ ATTRS) (nm : Option String) (ms : List FileMeta)
    (k : String) (hk : k ∈ keys) (v : Value) :
    ∃ c, addAll (FileMetaCollection.new keys nm) ms = .ok c
      ∧ c.meta_list = ms
      ∧ c.get_meta_index k = some (idxOf k ms)
      ∧ lookupA (idxOf k ms) v = lastAdded k v ms := by
  refine ⟨⟨nm, keys, ms, keys.map fun x => (x, idxOf x ms)⟩,
    addAll_new_spec keys hnd hv nm ms, rfl, ?_, lookupA_idxOf k v ms⟩
  exact lookupA_map_pair hk

/-- C6 witness: two records sharing the path value "p"; the index keeps the
later one. -/
theorem claim_C6_witness :
    (["path"] : List String).Nodup
    ∧ (∀ k ∈ (["path"] : List String), k ∈ ATTRS)
    ∧ "path" ∈ (["path"] : List String)
    ∧ ∃ c, addAll (FileMetaCollection.new ["path"] none)
          [pathRec "a" "p", pathRec "b" "p"] = .ok c
        ∧ c.meta_list = [pathRec "a" "p", pathRec "b" "p"]
        ∧ c.get_meta_index "path" =
            some (idxOf "path" [pathRec "a" "p", pathRec "b" "p"])
        ∧ lookupA (idxOf "path" [pathRec "a" "p", pathRec "b" "p"])
            (Value.str "p") =
          lastAdded "path" (Value.str "p") [pathRec "a" "p", pathRec "b" "p"] :=
  ⟨by decide, by decide, by decide,
   claim_C6 ["path"] (by decide) (by decide) none
     [pathRec "a" "p", pathRec "b" "p"] "path" (by decide) (Value.str "p")⟩

/-- C7 counterexample: the claim as stated also covers a single absent
marker, but `group_diff` on the one-element list holding the absent marker
raises `TypeError` (it evaluates `meta[key]` on Python `None`) instead of
yielding group id 0. -/
theorem claim_C7_cex :
    group_diff ["hash", "size"] [none] =
      .error "TypeError: NoneType object is not subscriptable" := rfl

/-- C7 (amended: for a single real Record; a single absent marker instead
raises `TypeError`, see the counterexample and C1): `group_diff` on a
one-record list yields combined group id 0 and per-attribute group id 0 for
every interesting key. -/
theorem claim_C7 (keys : List String) (hnd : keys.Nodup)
    (hv : ∀ k ∈ keys, k ∈ ATTRS) (m : FileMeta) :
    group_diff keys [some m] = .ok [(some m, keys.map fun k => (k, 0), 0)] := by
  have h := group_diff_spec keys hnd hv [m]
  simp only [List.map_cons, List.map_nil] at h
  rw [h]
  have hper : ∀ k, perAttrId [m] k m = 0 := by
    intro k
    simp [perAttrId, attrVals, firstSeen, seenInsert, idxOfA]
  have htup : tupleAt keys [m] m = keys.map fun k => (k, 0) := by
    unfold tupleAt
    apply List.map_congr_left
    intro k _
    rw [hper k]
  have hcomb : combinedAt keys [m] m = 0 := by
    simp [combinedAt, firstSeen, seenInsert, idxOfA]
  rw [htup, hcomb]

/-- C7 witness: the amended theorem at one concrete record with the diff
mode's interesting keys. -/
theorem claim_C7_witness :
    (["hash", "size"] : List String).Nodup
    ∧ (∀ k ∈ (["hash", "size"] : List String), k ∈ ATTRS)
    ∧ group_diff ["hash", "size"] [some (exRec "x" 2)] =
        .ok [(some (exRec "x" 2), ["hash", "size"].map fun k => (k, 0), 0)] :=
  ⟨by decide, by decide,
   claim_C7 ["hash", "size"] (by decide) (by decide) (exRec "x" 2)⟩

/-- C8: the claim that all ten documented placeholders render fails on the
code: `to_string` calls `fmt.format` with keywords `time=` and `hash_value=`
instead of `atime=` and `hash=`, so the documented `{hash}` and `{atime}`
placeholders raise `KeyError` (conjuncts 1 and 2). A working placeholder
substitutes the field (conjunct 3), and an unknown placeholder is indeed a
`KeyError` (conjunct 4). -/
theorem claim_C8_eval (m : FileMeta) :
    m.to_string [TmplPart.field "hash"] = none
    ∧ m.to_string [TmplPart.field "atime"] = none
    ∧ m.to_string [TmplPart.field "mode"] = some m.mode.pyStr
    ∧ m.to_string [TmplPart.field "unknown"] = none :=
  ⟨rfl, rfl, by simp [FileMeta.to_string, formatTmpl, lookupA], rfl⟩

/-- C9: the claim that each CSV data row holds the record's ten field values
fails on the code: `to_csv` hands each record's dict to `csv.writer`, and
iterating a dict yields its keys, so every data row is the ten key names
(conjunct 1 in general, conjunct 2 on a one-record snapshot), which is not
the record's value row (conjunct 3). -/
theorem claim_C9_eval :
    (∀ c : FileMetaCollection,
        to_csv_rows c = FileMeta.KEYS :: c.meta_list.map fun _ => FileMeta.KEYS)
    ∧ (addAll (FileMetaCollection.new ["path"] none) [pathRec "f" "p"] =
        .ok ⟨none, ["path"], [pathRec "f" "p"],
          [("path", [(Value.str "p", pathRec "f" "p")])]⟩
      ∧ to_csv_rows ⟨none, ["path"], [pathRec "f" "p"],
          [("path", [(Value.str "p", pathRec "f" "p")])]⟩ =
        [FileMeta.KEYS, FileMeta.KEYS])
    ∧ csvValueRow (pathRec "f" "p") ≠ FileMeta.KEYS := by
  refine ⟨?_, ⟨rfl, rfl⟩, by decide⟩
  intro c
  unfold to_csv_rows
  exact congrArg (FileMeta.KEYS :: ·)
    (List.map_congr_left fun x _ => keys_to_dict x)

/-- C10: the claim that the component-wise ignore matcher reaches a result
in finitely many steps on every input fails on the code: on the absolute
path "/a" with patterns ["b"], `os.path.split` maps "/" to ("/", ""), so the
loop variable stays "/" forever and no amount of fuel reaches a result
(conjunct 1). On relative paths the loop does reach a result in a few steps
(conjuncts 2 and 3). -/
theorem claim_C10_eval :
    (∀ fuel : Nat, ignore_file fuel "/a" ["b"] = none)
    ∧ ignore_file 2 "a/b.log" ["*.log"] = some true
    ∧ ignore_file 2 "a/b.txt" ["*.log"] = some false := by
  refine ⟨?_, rfl, rfl⟩
  have hroot : ∀ n : Nat, ignoreLoop ["b"] n "/" = none := by
    intro n
    induction n with
    | zero => rfl
    | succ k ih =>
      exact (show ignoreLoop ["b"] (Nat.succ k) "/" = ignoreLoop ["b"] k "/"
        from rfl).trans ih
  intro fuel
  cases fuel with
  | zero => rfl
  | succ n =>
    exact (show ignore_file (Nat.succ n) "/a" ["b"] = ignoreLoop ["b"] n "/"
      from rfl).trans (hroot n)

end FsAudit
